import Mathlib

/-!
Verification development for the builder workspace's live file-state
reconciliation and sandbox lifecycle controller.

The source under scrutiny consists of the `BuilderView` component (merge of
tree snapshots and change events into the reconciled `filesMap`) and the two
`WebContainerPreview` variants (bring-up `setupContainer`, incremental file
`sync`, and the output scanners `scanForErrors` / `processLog`).

JavaScript plain objects keyed by path are modelled as association lists
(`FileMap`): insertion keeps the key order of a JS object (existing key keeps
its slot, fresh key is appended), lookup returns the bound value, and the JS
object-spread merge is a left fold of insertions.
-/

/-- A JS object mapping file paths to file contents
(`Record<string, string>` in the source). -/
abbrev FileMap : Type := List (String × String)

/-- `Object.keys(m)` — key list in insertion order. -/
def fmKeys (m : FileMap) : List String := m.map Prod.fst

/-- `m[k]` — value at key `k`, `none` for JS `undefined`. -/
def fmLookup : FileMap → String → Option String
  | [], _ => none
  | (k', v) :: rest, k => if k' = k then some v else fmLookup rest k

/-- `m[k] = v` — JS object assignment: an existing key keeps its slot in the
key order and only its value changes; a fresh key is appended at the end. -/
def fmInsert (m : FileMap) (k v : String) : FileMap :=
  if k ∈ fmKeys m then
    m.map (fun e => if e.1 = k then (k, v) else e)
  else
    m ++ [(k, v)]

/-- `delete m[k]` — remove the key from the object. -/
def fmErase (m : FileMap) (k : String) : FileMap :=
  m.filter (fun e => decide (e.1 ≠ k))

/-- JS truthiness of a possibly-undefined string value: `undefined` and the
empty string are falsy, every other string is truthy. -/
def truthyStr : Option String → Bool
  | none => false
  | some v => v ≠ ""

/-- First-some choice on options. -/
def oElse (a b : Option String) : Option String :=
  match a with
  | some v => some v
  | none => b

/-- The value the *last* binding of `k` in `b` holds, if any
(the binding that survives when `b`'s entries are assigned in order). -/
def findLast (b : FileMap) (k : String) : Option String :=
  fmLookup (List.reverse b) k

/-- `{...a, ...b}` — JS object spread: start from `a`, assign every entry of
`b` in order. -/
def jsUnion (a b : FileMap) : FileMap :=
  b.foldl (fun m e => fmInsert m e.1 e.2) a

-- ## Basic lemmas about the FileMap model

theorem oElse_none (b : Option String) : oElse none b = b := rfl

theorem oElse_some (v : String) (b : Option String) :
    oElse (some v) b = some v := rfl

theorem oElse_assoc (a b c : Option String) :
    oElse (oElse a b) c = oElse a (oElse b c) := by
  cases a <;> simp [oElse]

theorem fmLookup_append (xs ys : FileMap) (k : String) :
    fmLookup (xs ++ ys) k = oElse (fmLookup xs k) (fmLookup ys k) := by
  induction xs with
  | nil => rfl
  | cons e rest ih =>
      obtain ⟨k', v⟩ := e
      by_cases h : k' = k
      · simp [fmLookup, h, oElse]
      · simp [fmLookup, h, ih]

theorem fmLookup_isSome_iff (m : FileMap) (k : String) :
    (fmLookup m k).isSome = true ↔ k ∈ fmKeys m := by
  induction m with
  | nil => simp [fmLookup, fmKeys]
  | cons e rest ih =>
      obtain ⟨k', v⟩ := e
      by_cases h : k' = k
      · simp [fmLookup, fmKeys, h]
      · simp [fmLookup, fmKeys, h, ih, Ne.symm h]

theorem fmLookup_eq_none_of_notMem {m : FileMap} {k : String}
    (h : k ∉ fmKeys m) : fmLookup m k = none := by
  cases hl : fmLookup m k with
  | none => rfl
  | some v => exact absurd ((fmLookup_isSome_iff m k).mp (by simp [hl])) h

theorem mem_of_fmLookup_eq_some {m : FileMap} {k v : String}
    (h : fmLookup m k = some v) : k ∈ fmKeys m :=
  (fmLookup_isSome_iff m k).mp (by simp [h])

theorem fmKeys_append (xs ys : FileMap) :
    fmKeys (xs ++ ys) = fmKeys xs ++ fmKeys ys := by
  simp [fmKeys]

theorem fmKeys_fmInsert_of_mem {m : FileMap} {k : String} (v : String)
    (h : k ∈ fmKeys m) : fmKeys (fmInsert m k v) = fmKeys m := by
  unfold fmInsert
  rw [if_pos h]
  unfold fmKeys
  rw [List.map_map]
  apply List.map_congr_left
  intro e _
  by_cases he : e.1 = k
  · simp [he]
  · simp [he]

theorem fmKeys_fmInsert_of_notMem {m : FileMap} {k : String} (v : String)
    (h : k ∉ fmKeys m) : fmKeys (fmInsert m k v) = fmKeys m ++ [k] := by
  unfold fmInsert
  rw [if_neg h]
  simp [fmKeys]

theorem mem_fmKeys_fmInsert_iff (m : FileMap) (k v : String) (p : String) :
    p ∈ fmKeys (fmInsert m k v) ↔ p ∈ fmKeys m ∨ p = k := by
  by_cases h : k ∈ fmKeys m
  · rw [fmKeys_fmInsert_of_mem v h]
    constructor
    · exact fun hp => Or.inl hp
    · rintro (hp | rfl)
      · exact hp
      · exact h
  · rw [fmKeys_fmInsert_of_notMem v h]
    simp

theorem fmLookup_map_assign_ne (m : FileMap) (k v p : String) (hp : p ≠ k) :
    fmLookup (m.map (fun e => if e.1 = k then (k, v) else e)) p =
      fmLookup m p := by
  induction m with
  | nil => rfl
  | cons e rest ih =>
      obtain ⟨k', v'⟩ := e
      by_cases hk : k' = k
      · subst hk
        have hne : ¬ (k' = p) := fun h => hp h.symm
        simp only [List.map_cons, if_pos rfl]
        simp [fmLookup, hne, ih]
      · simp only [List.map_cons, if_neg hk]
        by_cases hkp : k' = p
        · simp [fmLookup, hkp]
        · simp [fmLookup, hkp, ih]

theorem fmLookup_map_assign_self (m : FileMap) (k v : String)
    (h : k ∈ fmKeys m) :
    fmLookup (m.map (fun e => if e.1 = k then (k, v) else e)) k = some v := by
  induction m with
  | nil => simp [fmKeys] at h
  | cons e rest ih =>
      obtain ⟨k', v'⟩ := e
      by_cases hk : k' = k
      · subst hk
        simp only [List.map_cons, if_pos rfl]
        show fmLookup ((k', v) :: _) k' = _
        rw [fmLookup, if_pos rfl]
      · simp only [List.map_cons, if_neg hk]
        show fmLookup ((k', v') :: _) k = _
        rw [fmLookup, if_neg hk]
        apply ih
        rcases (by simpa [fmKeys] using h) with h1 | h2
        · exact absurd h1.symm hk
        · simpa [fmKeys] using h2

theorem fmLookup_fmInsert (m : FileMap) (k v p : String) :
    fmLookup (fmInsert m k v) p =
      if p = k then some v else fmLookup m p := by
  unfold fmInsert
  by_cases h : k ∈ fmKeys m
  · rw [if_pos h]
    by_cases hp : p = k
    · subst hp
      rw [if_pos rfl]
      exact fmLookup_map_assign_self m p v h
    · rw [if_neg hp]
      exact fmLookup_map_assign_ne m k v p hp
  · rw [if_neg h, fmLookup_append]
    by_cases hp : p = k
    · subst hp
      rw [fmLookup_eq_none_of_notMem h, if_pos rfl]
      simp [oElse, fmLookup]
    · rw [if_neg hp]
      have hkp : ¬ (k = p) := fun h => hp h.symm
      have : fmLookup [(k, v)] p = none := by simp [fmLookup, hkp]
      rw [this]
      cases fmLookup m p <;> rfl

theorem fmLookup_fmInsert_self (m : FileMap) (k v : String) :
    fmLookup (fmInsert m k v) k = some v := by
  rw [fmLookup_fmInsert, if_pos rfl]

theorem fmLookup_fmInsert_ne (m : FileMap) (k v p : String) (hp : p ≠ k) :
    fmLookup (fmInsert m k v) p = fmLookup m p := by
  rw [fmLookup_fmInsert, if_neg hp]

-- ## Lemmas about the JS object-spread union

theorem jsUnion_nil (a : FileMap) : jsUnion a [] = a := rfl

theorem jsUnion_cons (a : FileMap) (k v : String) (rest : FileMap) :
    jsUnion a ((k, v) :: rest) = jsUnion (fmInsert a k v) rest := rfl

theorem findLast_nil (k : String) : findLast [] k = none := rfl

theorem findLast_cons (k' v k : String) (rest : FileMap) :
    findLast ((k', v) :: rest) k =
      oElse (findLast rest k) (if k' = k then some v else none) := by
  unfold findLast
  rw [List.reverse_cons, fmLookup_append]
  rfl

theorem fmLookup_jsUnion (a b : FileMap) (k : String) :
    fmLookup (jsUnion a b) k = oElse (findLast b k) (fmLookup a k) := by
  induction b generalizing a with
  | nil => simp [jsUnion_nil, findLast_nil, oElse]
  | cons e rest ih =>
      obtain ⟨k', v⟩ := e
      rw [jsUnion_cons, ih, findLast_cons, oElse_assoc]
      congr 1
      rw [fmLookup_fmInsert]
      by_cases h : k = k'
      · subst h
        rw [if_pos rfl, if_pos rfl]
        rfl
      · rw [if_neg h, if_neg (fun hh => h hh.symm)]
        rfl

theorem mem_fmKeys_jsUnion_left {a : FileMap} (b : FileMap) {k : String}
    (h : k ∈ fmKeys a) : k ∈ fmKeys (jsUnion a b) := by
  induction b generalizing a with
  | nil => exact h
  | cons e rest ih =>
      obtain ⟨k', v⟩ := e
      rw [jsUnion_cons]
      exact ih ((mem_fmKeys_fmInsert_iff a k' v k).mpr (Or.inl h))

theorem mem_fmKeys_jsUnion_right {a b : FileMap} {k : String}
    (h : k ∈ fmKeys b) : k ∈ fmKeys (jsUnion a b) := by
  induction b generalizing a with
  | nil => simp [fmKeys] at h
  | cons e rest ih =>
      obtain ⟨k', v⟩ := e
      rw [jsUnion_cons]
      rcases (by simpa [fmKeys] using h) with h1 | h2
      · subst h1
        exact mem_fmKeys_jsUnion_left rest
          ((mem_fmKeys_fmInsert_iff a k v k).mpr (Or.inr rfl))
      · exact ih (by simpa [fmKeys] using h2)

theorem fmKeys_jsUnion_extends (a b : FileMap) :
    ∃ ext, fmKeys (jsUnion a b) = fmKeys a ++ ext := by
  induction b generalizing a with
  | nil => exact ⟨[], by simp [jsUnion_nil]⟩
  | cons e rest ih =>
      obtain ⟨k, v⟩ := e
      rw [jsUnion_cons]
      by_cases h : k ∈ fmKeys a
      · obtain ⟨ext, hext⟩ := ih (fmInsert a k v)
        exact ⟨ext, by rw [hext, fmKeys_fmInsert_of_mem v h]⟩
      · obtain ⟨ext, hext⟩ := ih (fmInsert a k v)
        exact ⟨[k] ++ ext, by
          rw [hext, fmKeys_fmInsert_of_notMem v h, List.append_assoc]⟩

theorem fmKeys_jsUnion_of_sub {a b : FileMap}
    (h : ∀ k ∈ fmKeys b, k ∈ fmKeys a) :
    fmKeys (jsUnion a b) = fmKeys a := by
  induction b generalizing a with
  | nil => simp [jsUnion_nil]
  | cons e rest ih =>
      obtain ⟨k, v⟩ := e
      rw [jsUnion_cons]
      have hk : k ∈ fmKeys a := h k (by simp [fmKeys])
      rw [ih (fun k' hk' => by
        rw [fmKeys_fmInsert_of_mem v hk]
        exact h k' (by simp [fmKeys]; exact Or.inr (by simpa [fmKeys] using hk')))]
      exact fmKeys_fmInsert_of_mem v hk

theorem findLast_isSome_iff (b : FileMap) (k : String) :
    (findLast b k).isSome = true ↔ k ∈ fmKeys b := by
  unfold findLast
  rw [fmLookup_isSome_iff]
  unfold fmKeys
  rw [List.map_reverse, List.mem_reverse]

-- ## The server-reported file tree (`FileNode` in src/types) and the
-- ## full-snapshot merge effect of `BuilderView`

inductive NodeKind where
  | file
  | directory
deriving DecidableEq, Repr

mutual
/-- A node of the server-reported project tree. `content` is optional
(present only for fetched files). The source's optional `children` array is
modelled as a forest, with an absent array rendered as the empty forest: the
traversal guards recursion on `node.children` being truthy, and in JS an
array is always truthy while `undefined` is falsy, so an absent array and an
empty array contribute identically (nothing). -/
inductive FileNode : Type where
  | mk (path : String) (kind : NodeKind) (content : Option String)
      (children : Forest)
/-- An ordered sequence of tree nodes. -/
inductive Forest : Type where
  | nil : Forest
  | cons (head : FileNode) (tail : Forest) : Forest
end

def FileNode.path : FileNode → String
  | FileNode.mk p _ _ _ => p

def FileNode.kind : FileNode → NodeKind
  | FileNode.mk _ t _ _ => t

def FileNode.content : FileNode → Option String
  | FileNode.mk _ _ c _ => c

def FileNode.children : FileNode → Forest
  | FileNode.mk _ _ _ ch => ch

mutual
/-- One step of `traverse` in `BuilderView` (lines 129-137): a node stores
`newFiles[node.path] = node.content` exactly when
`node.type === 'file' && 'content' in node && node.content` holds — the
content must be present *and* truthy (non-empty) — and then the node's
children are traversed. -/
def collectNode (n : FileNode) (acc : FileMap) : FileMap :=
  match n with
  | FileNode.mk p t c ch =>
      let acc1 :=
        match c with
        | some s => if t = NodeKind.file ∧ s ≠ "" then fmInsert acc p s else acc
        | none => acc
      collectForest ch acc1
/-- `nodes.forEach(...)` of `traverse`, folding the accumulator through the
sequence. -/
def collectForest (f : Forest) (acc : FileMap) : FileMap :=
  match f with
  | Forest.nil => acc
  | Forest.cons n rest => collectForest rest (collectNode n acc)
end

/-- `traverse(fileTree)` starting from the empty `newFiles` object. -/
def traverseForest (f : Forest) : FileMap := collectForest f []

/-- The structural-equality check of the merge effect (lines 142-146):
`keys1.length === keys2.length && keys1.every(k => prev[k] === updated[k])`.
When it returns `true` the effect returns the previous map object itself,
so no downstream update is triggered. -/
def mergeGuard (prev updated : FileMap) : Bool :=
  ((fmKeys prev).length == (fmKeys updated).length) &&
  (fmKeys prev).all (fun k => fmLookup prev k == fmLookup updated k)

/-- The full-snapshot merge effect of `BuilderView` (lines 139-148):
`updated = {...prev, ...newFiles}`; the previous object is returned
unchanged when the structural check succeeds. -/
def mergeSnapshot (prev : FileMap) (tree : Forest) : FileMap :=
  let newFiles := traverseForest tree
  let updated := jsUnion prev newFiles
  if mergeGuard prev updated then prev else updated

-- ## Merge lemmas

theorem mergeGuard_true_of (m nf : FileMap)
    (hsub : ∀ k ∈ fmKeys nf, k ∈ fmKeys m)
    (hval : ∀ k v, findLast nf k = some v → fmLookup m k = some v) :
    mergeGuard m (jsUnion m nf) = true := by
  unfold mergeGuard
  rw [Bool.and_eq_true]
  constructor
  · rw [fmKeys_jsUnion_of_sub hsub]
    simp
  · rw [List.all_eq_true]
    intro k hk
    rw [beq_iff_eq, fmLookup_jsUnion]
    cases hfl : findLast nf k with
    | none => rfl
    | some v => rw [oElse_some, hval k v hfl]

theorem mergeGuard_keys_eq {prev nf : FileMap}
    (hg : mergeGuard prev (jsUnion prev nf) = true) :
    fmKeys (jsUnion prev nf) = fmKeys prev := by
  unfold mergeGuard at hg
  rw [Bool.and_eq_true] at hg
  obtain ⟨hlen, _⟩ := hg
  rw [beq_iff_eq] at hlen
  obtain ⟨ext, hext⟩ := fmKeys_jsUnion_extends prev nf
  rw [hext]
  rw [hext, List.length_append] at hlen
  have : ext.length = 0 := by omega
  rw [List.length_eq_zero] at this
  rw [this, List.append_nil]

theorem mergeGuard_lookup_eq {prev nf : FileMap}
    (hg : mergeGuard prev (jsUnion prev nf) = true)
    {k : String} (hk : k ∈ fmKeys prev) :
    fmLookup prev k = fmLookup (jsUnion prev nf) k := by
  unfold mergeGuard at hg
  rw [Bool.and_eq_true] at hg
  obtain ⟨_, hall⟩ := hg
  rw [List.all_eq_true] at hall
  have := hall k hk
  rwa [beq_iff_eq] at this

theorem mergeSnapshot_eq (prev : FileMap) (tree : Forest) :
    mergeSnapshot prev tree =
      if mergeGuard prev (jsUnion prev (traverseForest tree)) then prev
      else jsUnion prev (traverseForest tree) := rfl

/-- Claim C2: for every tree snapshot, merging the same snapshot a second
time into the Reconciled File Map yields a map equal to the map after the
first merge; indeed the structural-equality guard of the second merge
evaluates to `true`, so the effect returns the previous map object itself
(no new reference) and no downstream sync cycle is triggered. -/
theorem c2_full_snapshot_merge_idempotent (prev : FileMap) (tree : Forest) :
    mergeGuard (mergeSnapshot prev tree)
        (jsUnion (mergeSnapshot prev tree) (traverseForest tree)) = true ∧
    mergeSnapshot (mergeSnapshot prev tree) tree = mergeSnapshot prev tree := by
  have hguard : mergeGuard (mergeSnapshot prev tree)
      (jsUnion (mergeSnapshot prev tree) (traverseForest tree)) = true := by
    rw [mergeSnapshot_eq]
    by_cases hg : mergeGuard prev (jsUnion prev (traverseForest tree)) = true
    · rw [if_pos hg]
      apply mergeGuard_true_of
      · intro k hk
        have hku : k ∈ fmKeys (jsUnion prev (traverseForest tree)) :=
          mem_fmKeys_jsUnion_right hk
        rwa [mergeGuard_keys_eq hg] at hku
      · intro k v hfl
        have hk : k ∈ fmKeys (traverseForest tree) :=
          (findLast_isSome_iff _ k).mp (by simp [hfl])
        have hkp : k ∈ fmKeys prev := by
          have hku : k ∈ fmKeys (jsUnion prev (traverseForest tree)) :=
            mem_fmKeys_jsUnion_right hk
          rwa [mergeGuard_keys_eq hg] at hku
        rw [mergeGuard_lookup_eq hg hkp, fmLookup_jsUnion, hfl, oElse_some]
    · rw [if_neg hg]
      apply mergeGuard_true_of
      · intro k hk
        exact mem_fmKeys_jsUnion_right hk
      · intro k v hfl
        rw [fmLookup_jsUnion, hfl, oElse_some]
  refine ⟨hguard, ?_⟩
  rw [mergeSnapshot_eq (mergeSnapshot prev tree) tree, if_pos hguard]

/-- Claim C9 (implicit): the full-snapshot merge never removes keys — every
key present in the map before the merge is still present after it, holding
either its previous value or the snapshot's value for that path (the value
of the last snapshot binding of the key, when the snapshot has one). -/
theorem c9_merge_preserves_existing_keys (prev : FileMap) (tree : Forest)
    (k : String) (h : k ∈ fmKeys prev) :
    k ∈ fmKeys (mergeSnapshot prev tree) ∧
    fmLookup (mergeSnapshot prev tree) k =
      oElse (findLast (traverseForest tree) k) (fmLookup prev k) := by
  rw [mergeSnapshot_eq]
  by_cases hg : mergeGuard prev (jsUnion prev (traverseForest tree)) = true
  · rw [if_pos hg]
    refine ⟨h, ?_⟩
    rw [← fmLookup_jsUnion]
    exact mergeGuard_lookup_eq hg h
  · rw [if_neg hg]
    exact ⟨mem_fmKeys_jsUnion_left (traverseForest tree) h,
      fmLookup_jsUnion prev (traverseForest tree) k⟩

/-- Witness for C9 at a concrete map and snapshot. -/
theorem c9_merge_preserves_existing_keys_witness :
    "a" ∈ fmKeys (mergeSnapshot [("a", "1")]
        (Forest.cons (FileNode.mk "b" NodeKind.file (some "x") Forest.nil)
          Forest.nil)) ∧
    fmLookup (mergeSnapshot [("a", "1")]
        (Forest.cons (FileNode.mk "b" NodeKind.file (some "x") Forest.nil)
          Forest.nil)) "a" =
      oElse (findLast (traverseForest
          (Forest.cons (FileNode.mk "b" NodeKind.file (some "x") Forest.nil)
            Forest.nil)) "a")
        (fmLookup [("a", "1")] "a") :=
  c9_merge_preserves_existing_keys [("a", "1")]
    (Forest.cons (FileNode.mk "b" NodeKind.file (some "x") Forest.nil)
      Forest.nil) "a" (by decide)

-- ## Reachable nodes of a tree, and which nodes contribute a key

mutual
/-- A node together with all of its descendants, in traversal order. -/
def nodeList (n : FileNode) : List FileNode :=
  match n with
  | FileNode.mk p t c ch => FileNode.mk p t c ch :: forestList ch
/-- All nodes of a forest together with their descendants. -/
def forestList (f : Forest) : List FileNode :=
  match f with
  | Forest.nil => []
  | Forest.cons n rest => nodeList n ++ forestList rest
end

/-- A node passes the `traverse` guard for path `p`: it is a file node whose
content is present and non-empty, at path `p`. -/
def contributesAt (n : FileNode) (p : String) : Prop :=
  n.path = p ∧ n.kind = NodeKind.file ∧ ∃ c, n.content = some c ∧ c ≠ ""

mutual
theorem mem_keys_collectNode : ∀ (n : FileNode) (acc : FileMap) (p : String),
    (p ∈ fmKeys (collectNode n acc) ↔
      p ∈ fmKeys acc ∨ ∃ m, m ∈ nodeList n ∧ contributesAt m p)
  | FileNode.mk q t c ch, acc, p => by
      have hch := mem_keys_collectForest ch
      show p ∈ fmKeys (collectForest ch _) ↔ _
      cases c with
      | none =>
          rw [hch]
          simp only [nodeList, List.mem_cons]
          constructor
          · rintro (h | ⟨m, hm, hc⟩)
            · exact Or.inl h
            · exact Or.inr ⟨m, Or.inr hm, hc⟩
          · rintro (h | ⟨m, (rfl | hm), hc⟩)
            · exact Or.inl h
            · obtain ⟨_, _, c', hc', _⟩ := hc
              simp [FileNode.content] at hc'
            · exact Or.inr ⟨m, hm, hc⟩
      | some s =>
          show p ∈ fmKeys (collectForest ch
              (if t = NodeKind.file ∧ s ≠ "" then fmInsert acc q s else acc)) ↔
            p ∈ fmKeys acc ∨ ∃ m, m ∈ nodeList (FileNode.mk q t (some s) ch) ∧
              contributesAt m p
          by_cases hg : t = NodeKind.file ∧ s ≠ ""
          · rw [if_pos hg, hch, mem_fmKeys_fmInsert_iff]
            simp only [nodeList, List.mem_cons]
            constructor
            · rintro ((h | hq) | ⟨m, hm, hc⟩)
              · exact Or.inl h
              · exact Or.inr ⟨FileNode.mk q t (some s) ch, Or.inl rfl,
                  hq.symm, hg.1, s, rfl, hg.2⟩
              · exact Or.inr ⟨m, Or.inr hm, hc⟩
            · rintro (h | ⟨m, (rfl | hm), hc⟩)
              · exact Or.inl (Or.inl h)
              · exact Or.inl (Or.inr hc.1.symm)
              · exact Or.inr ⟨m, hm, hc⟩
          · rw [if_neg hg, hch]
            simp only [nodeList, List.mem_cons]
            constructor
            · rintro (h | ⟨m, hm, hc⟩)
              · exact Or.inl h
              · exact Or.inr ⟨m, Or.inr hm, hc⟩
            · rintro (h | ⟨m, (rfl | hm), hc⟩)
              · exact Or.inl h
              · obtain ⟨_, hkind, c', hc', hne⟩ := hc
                simp only [FileNode.content, Option.some.injEq] at hc'
                simp only [FileNode.kind] at hkind
                exact absurd ⟨hkind, hc' ▸ hne⟩ hg
              · exact Or.inr ⟨m, hm, hc⟩
theorem mem_keys_collectForest : ∀ (f : Forest) (acc : FileMap) (p : String),
    (p ∈ fmKeys (collectForest f acc) ↔
      p ∈ fmKeys acc ∨ ∃ m, m ∈ forestList f ∧ contributesAt m p)
  | Forest.nil, acc, p => by
      simp [collectForest, forestList]
  | Forest.cons n rest, acc, p => by
      show p ∈ fmKeys (collectForest rest (collectNode n acc)) ↔ _
      rw [mem_keys_collectForest rest, mem_keys_collectNode n]
      simp only [forestList, List.mem_append]
      constructor
      · rintro ((h | ⟨m, hm, hc⟩) | ⟨m, hm, hc⟩)
        · exact Or.inl h
        · exact Or.inr ⟨m, Or.inl hm, hc⟩
        · exact Or.inr ⟨m, Or.inr hm, hc⟩
      · rintro (h | ⟨m, (hm | hm), hc⟩)
        · exact Or.inl (Or.inl h)
        · exact Or.inl (Or.inr ⟨m, hm, hc⟩)
        · exact Or.inr ⟨m, hm, hc⟩
end

/-- Claim C10 (implicit): a file node whose content is the empty string (or
absent) contributes no key to the Reconciled File Map during the
full-snapshot merge — a path appears among the collected keys exactly when
some reachable node is a file node at that path whose content is present and
non-empty. -/
theorem c10_empty_content_nodes_contribute_nothing (tree : Forest)
    (p : String) :
    p ∈ fmKeys (traverseForest tree) ↔
      ∃ n, n ∈ forestList tree ∧ n.path = p ∧ n.kind = NodeKind.file ∧
        ∃ c, n.content = some c ∧ c ≠ "" := by
  unfold traverseForest
  rw [mem_keys_collectForest tree]
  simp only [fmKeys, List.map_nil, List.not_mem_nil, false_or]
  constructor
  · rintro ⟨m, hm, h1, h2, h3⟩
    exact ⟨m, hm, h1, h2, h3⟩
  · rintro ⟨m, hm, h1, h2, h3⟩
    exact ⟨m, hm, h1, h2, h3⟩

-- ## Erase lemmas and the rename branch of the filesMap sync effect

theorem fmLookup_fmErase (m : FileMap) (k p : String) :
    fmLookup (fmErase m k) p = if p = k then none else fmLookup m p := by
  induction m with
  | nil =>
      simp only [fmErase, List.filter_nil, fmLookup]
      split <;> rfl
  | cons e rest ih =>
      obtain ⟨k', v⟩ := e
      by_cases hk : k' = k
      · subst hk
        have hfilter : fmErase ((k', v) :: rest) k' = fmErase rest k' := by
          simp [fmErase]
        rw [hfilter, ih]
        by_cases hp : p = k'
        · rw [if_pos hp, if_pos hp]
        · rw [if_neg hp, if_neg hp]
          have : ¬ (k' = p) := fun h => hp h.symm
          simp [fmLookup, this]
      · have hfilter : fmErase ((k', v) :: rest) k = (k', v) :: fmErase rest k := by
          simp [fmErase, hk]
        rw [hfilter]
        by_cases hkp : k' = p
        · subst hkp
          have hpk : ¬ (k' = k) := hk
          rw [if_neg (fun h : k' = k => hk h)]
          simp [fmLookup]
        · simp only [fmLookup, if_neg hkp]
          rw [ih]

theorem notMem_fmKeys_fmErase (m : FileMap) (k : String) :
    k ∉ fmKeys (fmErase m k) := by
  intro h
  have := (fmLookup_isSome_iff (fmErase m k) k).mpr h
  rw [fmLookup_fmErase, if_pos rfl] at this
  simp at this

/-- The rename branch of the filesMap synchronization effect of
`BuilderView` (lines 111-116):
`if (nextFilesMap[oldPath]) { nextFilesMap[newPath] = nextFilesMap[oldPath];
delete nextFilesMap[oldPath]; }` — the guard is JS truthiness of the
looked-up value, so an entry bound to the empty string does not pass it. -/
def applyRename (m : FileMap) (oldPath newPath : String) : FileMap :=
  match fmLookup m oldPath with
  | some v => if v = "" then m else fmErase (fmInsert m newPath v) oldPath
  | none => m

/-- Counterexample to claim C3 as stated: in the map with the single entry
"a" ↦ "" the key "a" exists, yet applying Renamed{oldPath "a", newPath "b"}
leaves the map unchanged and creates no "b" entry — the rename guard tests
JS truthiness of the content, and the empty string is falsy, so the value is
not moved even though oldPath exists as a key. -/
theorem c3_rename_counterexample :
    "a" ∈ fmKeys [("a", "")] ∧
    applyRename [("a", "")] "a" "b" = [("a", "")] ∧
    fmLookup (applyRename [("a", "")] "a" "b") "b" = none :=
  ⟨by decide, rfl, rfl⟩

/-- Claim C3 amended: applying Renamed{oldPath, newPath} with distinct paths
moves the value from oldPath to newPath whenever oldPath is bound to a
non-empty content string (newPath maps to the old value, oldPath is removed,
every other key keeps its value), and leaves the map entirely unchanged — in
particular creating no newPath entry — whenever oldPath is absent or bound
to the empty string. -/
theorem c3_rename_semantics_amended (m : FileMap) (o n : String)
    (hon : o ≠ n) :
    (∀ v, fmLookup m o = some v → v ≠ "" →
      fmLookup (applyRename m o n) n = some v ∧
      o ∉ fmKeys (applyRename m o n) ∧
      ∀ k, k ≠ o → k ≠ n → fmLookup (applyRename m o n) k = fmLookup m k) ∧
    ((fmLookup m o = none ∨ fmLookup m o = some "") →
      applyRename m o n = m) := by
  constructor
  · intro v hv hne
    have happ : applyRename m o n = fmErase (fmInsert m n v) o := by
      unfold applyRename
      rw [hv]
      exact if_neg hne
    rw [happ]
    refine ⟨?_, notMem_fmKeys_fmErase _ o, ?_⟩
    · rw [fmLookup_fmErase, if_neg (fun h => hon h.symm),
        fmLookup_fmInsert_self]
    · intro k hko hkn
      rw [fmLookup_fmErase, if_neg hko, fmLookup_fmInsert_ne _ _ _ _ hkn]
  · rintro (hv | hv) <;> unfold applyRename <;> rw [hv]
    exact if_pos rfl

/-- Witness for the amended C3 at concrete maps: a non-empty entry is moved,
and a map whose oldPath entry is empty is left unchanged. -/
theorem c3_rename_semantics_amended_witness :
    fmLookup (applyRename [("a", "1")] "a" "b") "b" = some "1" ∧
    "a" ∉ fmKeys (applyRename [("a", "1")] "a" "b") ∧
    applyRename [("c", "")] "c" "d" = [("c", "")] := by
  have h1 := (c3_rename_semantics_amended [("a", "1")] "a" "b"
    (by decide)).1 "1" (by decide) (by decide)
  have h2 := (c3_rename_semantics_amended [("c", "")] "c" "d"
    (by decide)).2 (Or.inr (by decide))
  exact ⟨h1.1, h1.2.1, h2⟩

-- ## The incremental sync delta (WebContainerPreview file sync effect)

/-- The changed-files scan of the file sync effect
(`Object.keys(files).forEach(...)`, lines 309-313 of the first variant and
275-279 of the second): each key of the current map whose value differs from
the previous snapshot's (`files[path] !== prevFilesRef.current[path]`) is
recorded with its current value in the `changedFiles` object. -/
def diffChangedAux (files prevFiles : FileMap) :
    List String → FileMap → FileMap
  | [], acc => acc
  | p :: rest, acc =>
      diffChangedAux files prevFiles rest
        (if fmLookup files p ≠ fmLookup prevFiles p then
          match fmLookup files p with
          | some v => fmInsert acc p v
          | none => acc
        else acc)

/-- `changedFiles` computed over all keys of the current map. -/
def diffChanged (files prevFiles : FileMap) : FileMap :=
  diffChangedAux files prevFiles (fmKeys files) []

/-- The deleted-files scan (lines 316-320 / 281-285): keys of the previous
snapshot that are no longer present in the current map
(`!(path in files)`). -/
def diffDeleted (files prevFiles : FileMap) : List String :=
  (fmKeys prevFiles).filter (fun p => decide (p ∉ fmKeys files))

theorem fmLookup_diffChangedAux (files prevFiles : FileMap)
    (ks : List String) (acc : FileMap) (k : String) :
    fmLookup (diffChangedAux files prevFiles ks acc) k =
      if k ∈ ks ∧ fmLookup files k ≠ fmLookup prevFiles k ∧
          (fmLookup files k).isSome = true then
        fmLookup files k
      else fmLookup acc k := by
  induction ks generalizing acc with
  | nil => simp [diffChangedAux]
  | cons p rest ih =>
      show fmLookup (diffChangedAux files prevFiles rest _) k = _
      rw [ih]
      by_cases hkrest : k ∈ rest ∧ fmLookup files k ≠ fmLookup prevFiles k ∧
          (fmLookup files k).isSome = true
      · rw [if_pos hkrest, if_pos ⟨List.mem_cons_of_mem p hkrest.1, hkrest.2⟩]
      · rw [if_neg hkrest]
        by_cases hkp : k = p
        · subst hkp
          by_cases hne : fmLookup files k ≠ fmLookup prevFiles k
          · rw [if_pos hne]
            cases hfk : fmLookup files k with
            | some v =>
                show fmLookup (fmInsert acc k v) k = _
                rw [fmLookup_fmInsert_self,
                  if_pos ⟨List.mem_cons_self k rest,
                    fun hc => hne (hfk.trans hc), rfl⟩]
            | none =>
                show fmLookup acc k = _
                rw [if_neg (fun hc => by simp at hc)]
          · rw [if_neg hne, if_neg (fun hc => hne hc.2.1)]
        · have hacc : fmLookup
              (if fmLookup files p ≠ fmLookup prevFiles p then
                match fmLookup files p with
                | some v => fmInsert acc p v
                | none => acc
              else acc) k = fmLookup acc k := by
            split
            · cases hfp : fmLookup files p with
              | some v => exact fmLookup_fmInsert_ne acc p v k hkp
              | none => rfl
            · rfl
          rw [hacc, if_neg (fun hc =>
            hkrest ⟨(List.mem_cons.mp hc.1).resolve_left hkp, hc.2⟩)]

theorem fmLookup_diffChanged (files prevFiles : FileMap) (k : String) :
    fmLookup (diffChanged files prevFiles) k =
      if k ∈ fmKeys files ∧ fmLookup files k ≠ fmLookup prevFiles k then
        fmLookup files k
      else none := by
  unfold diffChanged
  rw [fmLookup_diffChangedAux]
  by_cases h : k ∈ fmKeys files ∧ fmLookup files k ≠ fmLookup prevFiles k
  · rw [if_pos h, if_pos ⟨h.1, h.2, (fmLookup_isSome_iff files k).mpr h.1⟩]
  · rw [if_neg h, if_neg (fun hc => h ⟨hc.1, hc.2.1⟩)]
    rfl

theorem mem_fmKeys_diffChanged_iff (files prevFiles : FileMap) (k : String) :
    k ∈ fmKeys (diffChanged files prevFiles) ↔
      k ∈ fmKeys files ∧ fmLookup files k ≠ fmLookup prevFiles k := by
  rw [← fmLookup_isSome_iff, fmLookup_diffChanged]
  by_cases h : k ∈ fmKeys files ∧ fmLookup files k ≠ fmLookup prevFiles k
  · rw [if_pos h]
    simp [h, (fmLookup_isSome_iff files k).mpr h.1]
  · rw [if_neg h]
    simp [h]

theorem mem_diffDeleted_iff (files prevFiles : FileMap) (k : String) :
    k ∈ diffDeleted files prevFiles ↔
      k ∈ fmKeys prevFiles ∧ k ∉ fmKeys files := by
  unfold diffDeleted
  rw [List.mem_filter]
  simp

/-- Claim C4: the sync diff classifies as "changed" exactly the keys of the
current map whose value differs from (or is absent in) the previous
snapshot, each recorded with its current value, and as "deleted" exactly the
keys of the previous snapshot absent from the current map; concretely, for
mapBefore = {a: "1", b: "2"} and mapAfter = {a: "1", c: "3"} the delta is
changed = {c: "3"} and deleted = {b}, with "a" in neither set. -/
theorem c4_delta_computation :
    (∀ (files prevFiles : FileMap) (k : String),
      (k ∈ fmKeys (diffChanged files prevFiles) ↔
        k ∈ fmKeys files ∧ fmLookup files k ≠ fmLookup prevFiles k) ∧
      fmLookup (diffChanged files prevFiles) k =
        (if k ∈ fmKeys files ∧ fmLookup files k ≠ fmLookup prevFiles k then
          fmLookup files k
        else none) ∧
      (k ∈ diffDeleted files prevFiles ↔
        k ∈ fmKeys prevFiles ∧ k ∉ fmKeys files)) ∧
    diffChanged [("a", "1"), ("c", "3")] [("a", "1"), ("b", "2")] =
      [("c", "3")] ∧
    diffDeleted [("a", "1"), ("c", "3")] [("a", "1"), ("b", "2")] = ["b"] :=
  ⟨fun files prevFiles k =>
    ⟨mem_fmKeys_diffChanged_iff files prevFiles k,
      fmLookup_diffChanged files prevFiles k,
      mem_diffDeleted_iff files prevFiles k⟩,
    by decide, by decide⟩

-- ## The incremental sync batch (`sync` inside the file sync effect)

/-- `path.split('/')` — JS string split on a single-character separator:
`"a/b"` gives `["a", "b"]`, a leading separator yields a leading empty
segment, and the empty string yields `[""]`. -/
def splitSlashAux : List Char → List Char → List (List Char)
  | [], cur => [cur.reverse]
  | c :: rest, cur =>
      if c = '/' then cur.reverse :: splitSlashAux rest []
      else splitSlashAux rest (c :: cur)

def splitSlash (p : String) : List String :=
  (splitSlashAux p.data []).map String.mk

/-- `parts.join('/')` — JS array join with `'/'`. -/
def joinSlash : List String → String
  | [] => ""
  | [x] => x
  | x :: xs => x ++ "/" ++ joinSlash xs

/-- A filesystem call issued by the sync batch. -/
inductive SyncOp where
  | rm (path : String)
  | mkdir (dir : String)
  | write (path : String) (content : String)
deriving DecidableEq, Repr

/-- Per-path outcomes of the sandbox filesystem calls: the sync loop wraps
each item in its own try/catch, so an operation's failure is observable only
as that item's outcome. -/
structure FsOracle where
  rmOk : String → Bool
  mkdirOk : String → Bool
  writeOk : String → Bool

/-- The deletion loop (lines 330-336 / 301-307): `fs.rm(path,
{recursive: true})` for each deleted path, each call in its own try/catch,
so a failure never stops the loop. -/
def runDeletions (fs : FsOracle) : List String → List (SyncOp × Bool)
  | [] => []
  | p :: rest => (SyncOp.rm p, fs.rmOk p) :: runDeletions fs rest

/-- One iteration of the update loop (lines 339-351 / 310-321): if the path
has a parent chain, `fs.mkdir(dirPath, {recursive: true})` first; the write
is reached only if the mkdir did not throw (both sit in the same try), and a
failure of either is caught at this item's boundary. -/
def writeItemOps (fs : FsOracle) (p c : String) : List (SyncOp × Bool) :=
  if (splitSlash p).length > 1 then
    if fs.mkdirOk (joinSlash (splitSlash p).dropLast) then
      [(SyncOp.mkdir (joinSlash (splitSlash p).dropLast), true),
        (SyncOp.write p c, fs.writeOk p)]
    else [(SyncOp.mkdir (joinSlash (splitSlash p).dropLast), false)]
  else [(SyncOp.write p c, fs.writeOk p)]

/-- The update loop over all changed entries. -/
def runWrites (fs : FsOracle) : List (String × String) → List (SyncOp × Bool)
  | [] => []
  | (p, c) :: rest => writeItemOps fs p c ++ runWrites fs rest

/-- The whole `sync` closure: deletions first, then updates, then
`prevFilesRef.current = files` unconditionally. The first component is the
ordered trace of issued filesystem calls with their outcomes; the second is
the value stored as the new last-synced snapshot. -/
def syncBatch (fs : FsOracle) (files prevFiles : FileMap) :
    List (SyncOp × Bool) × FileMap :=
  (runDeletions fs (diffDeleted files prevFiles) ++
    runWrites fs (diffChanged files prevFiles), files)

theorem mem_runDeletions (fs : FsOracle) (ds : List String) (p : String)
    (h : p ∈ ds) : (SyncOp.rm p, fs.rmOk p) ∈ runDeletions fs ds := by
  induction ds with
  | nil => simp at h
  | cons q rest ih =>
      rcases List.mem_cons.mp h with rfl | h'
      · exact List.mem_cons_self _ _
      · exact List.mem_cons_of_mem _ (ih h')

theorem runDeletions_all_rm (fs : FsOracle) (ds : List String) :
    ∀ o ∈ runDeletions fs ds, ∃ p, o.1 = SyncOp.rm p := by
  induction ds with
  | nil => simp [runDeletions]
  | cons q rest ih =>
      intro o ho
      rcases List.mem_cons.mp ho with rfl | ho'
      · exact ⟨q, rfl⟩
      · exact ih o ho'

theorem writeItemOps_shape (fs : FsOracle) (p c : String) :
    ∀ o ∈ writeItemOps fs p c,
      (∃ d, o.1 = SyncOp.mkdir d) ∨ o.1 = SyncOp.write p c := by
  intro o ho
  unfold writeItemOps at ho
  split at ho
  · split at ho
    · rcases List.mem_cons.mp ho with rfl | ho'
      · exact Or.inl ⟨_, rfl⟩
      · rcases List.mem_cons.mp ho' with rfl | ho''
        · exact Or.inr rfl
        · simp at ho''
    · rcases List.mem_cons.mp ho with rfl | ho'
      · exact Or.inl ⟨_, rfl⟩
      · simp at ho'
  · rcases List.mem_cons.mp ho with rfl | ho'
    · exact Or.inr rfl
    · simp at ho'

theorem mem_runWrites (fs : FsOracle) (items : List (String × String))
    (e : String × String) (he : e ∈ items) :
    ∀ o ∈ writeItemOps fs e.1 e.2, o ∈ runWrites fs items := by
  induction items with
  | nil => simp at he
  | cons f rest ih =>
      obtain ⟨p, c⟩ := f
      intro o ho
      rcases List.mem_cons.mp he with rfl | he'
      · exact List.mem_append_left _ ho
      · exact List.mem_append_right _ (ih he' o ho)

theorem runWrites_no_rm (fs : FsOracle) (items : List (String × String)) :
    ∀ o ∈ runWrites fs items, ∀ p, o.1 ≠ SyncOp.rm p := by
  induction items with
  | nil => simp [runWrites]
  | cons f rest ih =>
      obtain ⟨q, c⟩ := f
      intro o ho p
      rcases List.mem_append.mp ho with ho' | ho'
      · rcases writeItemOps_shape fs q c o ho' with ⟨d, hd⟩ | hw
        · rw [hd]
          intro hcontra
          cases hcontra
        · rw [hw]
          intro hcontra
          cases hcontra
      · exact ih o ho' p

/-- Claim C7: within one incremental sync batch all deletions are issued
before any write; each per-path deletion is attempted with its own outcome
and each changed entry's operations are attempted, regardless of how any
other item fares (the oracle of per-path outcomes is arbitrary); and the
last-synced snapshot is replaced with the current map no matter how many
individual operations failed. -/
theorem c7_sync_batch_discipline (fs : FsOracle) (files prevFiles : FileMap) :
    (syncBatch fs files prevFiles).2 = files ∧
    (∀ p, p ∈ diffDeleted files prevFiles →
      (SyncOp.rm p, fs.rmOk p) ∈ (syncBatch fs files prevFiles).1) ∧
    (∀ e, e ∈ diffChanged files prevFiles →
      ∀ o, o ∈ writeItemOps fs e.1 e.2 →
        o ∈ (syncBatch fs files prevFiles).1) ∧
    (∃ ds ws, (syncBatch fs files prevFiles).1 = ds ++ ws ∧
      (∀ o, o ∈ ds → ∃ p, o.1 = SyncOp.rm p) ∧
      (∀ o, o ∈ ws → ∀ p, o.1 ≠ SyncOp.rm p)) := by
  refine ⟨rfl, ?_, ?_, ?_⟩
  · intro p hp
    exact List.mem_append_left _ (mem_runDeletions fs _ p hp)
  · intro e he o ho
    exact List.mem_append_right _ (mem_runWrites fs _ e he o ho)
  · exact ⟨runDeletions fs (diffDeleted files prevFiles),
      runWrites fs (diffChanged files prevFiles), rfl,
      runDeletions_all_rm fs _, runWrites_no_rm fs _⟩

/-- Witness for C7 at a concrete batch in which every deletion fails:
the failed `rm` is attempted with outcome `false`, the write of the changed
file is still attempted, and the snapshot still becomes the current map. -/
theorem c7_sync_batch_discipline_witness :
    (syncBatch ⟨fun _ => false, fun _ => true, fun _ => true⟩
        [("src/a.js", "v2")] [("b", "1")]).2 = [("src/a.js", "v2")] ∧
    (SyncOp.rm "b", false) ∈
      (syncBatch ⟨fun _ => false, fun _ => true, fun _ => true⟩
        [("src/a.js", "v2")] [("b", "1")]).1 ∧
    (SyncOp.write "src/a.js" "v2", true) ∈
      (syncBatch ⟨fun _ => false, fun _ => true, fun _ => true⟩
        [("src/a.js", "v2")] [("b", "1")]).1 := by
  have h := c7_sync_batch_discipline
    ⟨fun _ => false, fun _ => true, fun _ => true⟩
    [("src/a.js", "v2")] [("b", "1")]
  refine ⟨h.1, ?_, ?_⟩
  · exact h.2.1 "b" (by decide)
  · exact h.2.2.1 ("src/a.js", "v2") (by decide)
      (SyncOp.write "src/a.js" "v2", true) (by decide)

-- ## The sandbox bring-up sequence (`setupContainer`)

/-- A mount/install/spawn call issued by the bring-up attempt. -/
inductive Effect where
  | mount
  | spawnInstall
  | spawnBuild
  | spawnServe
  | spawnDev
deriving DecidableEq, Repr

/-- An entry of `fs.readdir('/', { withFileTypes: true })`. -/
structure DirEntry where
  name : String
  isDir : Bool
deriving DecidableEq, Repr

/-- The sandbox environment a bring-up attempt observes: whether
`fs.readFile('/package.json')` succeeds, the root directory listing (`none`
when `readdir` throws), whether `mount` resolves, and the exit codes of the
install and build processes. -/
structure SetupEnv where
  readFilePkgOk : Bool
  readdirRoot : Option (List DirEntry)
  mountResult : Except String Unit
  installExit : Int
  buildExit : Int

/-- The node_modules check (lines 193-203 / 171-180): the root listing
contains a directory entry named "node_modules"; a `readdir` failure is
caught and leaves the flag false. -/
def dependenciesInstalledCheck (env : SetupEnv) : Bool :=
  match env.readdirRoot with
  | some entries => entries.any (fun e => e.name == "node_modules" && e.isDir)
  | none => false

/-- The body of one bring-up attempt, from the `try` onward (lines 168-285
of the first variant, 149-254 of the second): skip mount if the manifest is
already readable in the sandbox filesystem, otherwise mount; skip install if
node_modules exists, otherwise spawn install and fail the attempt on a
non-zero exit; then either build + serve (production) or start the dev
server. The first component is the ordered list of issued calls, the second
the attempt's outcome. -/
def attemptBody (env : SetupEnv) (isProduction : Bool) :
    List Effect × Except String Unit :=
  let mountEffs : List Effect :=
    if env.readFilePkgOk then [] else [Effect.mount]
  let mountRes : Except String Unit :=
    if env.readFilePkgOk then Except.ok () else env.mountResult
  match mountRes with
  | Except.error e => (mountEffs, Except.error e)
  | Except.ok _ =>
      let instEffs : List Effect :=
        if dependenciesInstalledCheck env then [] else [Effect.spawnInstall]
      let instRes : Except String Unit :=
        if dependenciesInstalledCheck env then Except.ok ()
        else if env.installExit ≠ 0 then
          Except.error ("Failed to install dependencies. Exit code: " ++
            toString env.installExit)
        else Except.ok ()
      match instRes with
      | Except.error e => (mountEffs ++ instEffs, Except.error e)
      | Except.ok _ =>
          if isProduction then
            if env.buildExit ≠ 0 then
              (mountEffs ++ instEffs ++ [Effect.spawnBuild],
                Except.error ("Build failed with exit code: " ++
                  toString env.buildExit))
            else
              (mountEffs ++ instEffs ++
                [Effect.spawnBuild, Effect.spawnServe], Except.ok ())
          else
            (mountEffs ++ instEffs ++ [Effect.spawnDev], Except.ok ())

/-- Claim C5: during a bring-up attempt, if reading '/package.json' from the
sandbox filesystem succeeds then mount is not invoked (otherwise it is), and
if the root listing reports a node_modules directory then install is not
spawned (otherwise — once the mount phase has succeeded — it is). -/
theorem c5_skip_on_existing_artifact (env : SetupEnv) (isProduction : Bool) :
    (env.readFilePkgOk = true →
      Effect.mount ∉ (attemptBody env isProduction).1) ∧
    (env.readFilePkgOk = false →
      Effect.mount ∈ (attemptBody env isProduction).1) ∧
    (dependenciesInstalledCheck env = true →
      Effect.spawnInstall ∉ (attemptBody env isProduction).1) ∧
    ((env.readFilePkgOk = true ∨ env.mountResult = Except.ok ()) →
      dependenciesInstalledCheck env = false →
      Effect.spawnInstall ∈ (attemptBody env isProduction).1) := by
  refine ⟨?_, ?_, ?_, ?_⟩
  · intro hr
    by_cases hd : dependenciesInstalledCheck env = true <;>
      by_cases hi : env.installExit = 0 <;>
        by_cases hp : isProduction = true <;>
          by_cases hb : env.buildExit = 0 <;>
            simp [attemptBody, hr, hd, hi, hp, hb]
  · intro hr
    cases hm : env.mountResult with
    | error e => simp [attemptBody, hr, hm]
    | ok u =>
        by_cases hd : dependenciesInstalledCheck env = true <;>
          by_cases hi : env.installExit = 0 <;>
            by_cases hp : isProduction = true <;>
              by_cases hb : env.buildExit = 0 <;>
                simp [attemptBody, hr, hm, hd, hi, hp, hb]
  · intro hd
    by_cases hr : env.readFilePkgOk = true
    · by_cases hp : isProduction = true <;>
        by_cases hb : env.buildExit = 0 <;>
          simp [attemptBody, hr, hd, hp, hb]
    · cases hm : env.mountResult with
      | error e => simp [attemptBody, hr, hm]
      | ok u =>
          by_cases hp : isProduction = true <;>
            by_cases hb : env.buildExit = 0 <;>
              simp [attemptBody, hr, hm, hd, hp, hb]
  · intro hmount hd
    rcases hmount with hr | hm
    · by_cases hi : env.installExit = 0 <;>
        by_cases hp : isProduction = true <;>
          by_cases hb : env.buildExit = 0 <;>
            simp [attemptBody, hr, hd, hi, hp, hb]
    · by_cases hr : env.readFilePkgOk = true <;>
        by_cases hi : env.installExit = 0 <;>
          by_cases hp : isProduction = true <;>
            by_cases hb : env.buildExit = 0 <;>
              simp [attemptBody, hr, hm, hd, hi, hp, hb]

/-- Witness for C5 at a concrete environment: the manifest is readable and
node_modules is absent, so mount is skipped and install is spawned. -/
theorem c5_skip_on_existing_artifact_witness :
    Effect.mount ∉
      (attemptBody ⟨true, some [], Except.ok (), 0, 0⟩ false).1 ∧
    Effect.spawnInstall ∈
      (attemptBody ⟨true, some [], Except.ok (), 0, 0⟩ false).1 := by
  have h := c5_skip_on_existing_artifact ⟨true, some [], Except.ok (), 0, 0⟩
    false
  exact ⟨h.1 rfl, h.2.2.2 (Or.inl rfl) rfl⟩

-- ## The bring-up controller state and guards

/-- The controller-visible state of the preview component: the sandbox
runtime handle (`webContainerInstance !== null`), the `isSetupComplete`
flag, the synchronous `setupStartedRef`, the `serverUrl` string (empty for
"no URL yet"), and the `setupError` signal. -/
structure CtrlState where
  hasInstance : Bool
  isSetupComplete : Bool
  setupStarted : Bool
  serverUrl : String
  setupError : Option String
deriving DecidableEq, Repr

/-- The manifest gate (lines 162-165 / 142-145):
`!files['package.json'] && !files['/package.json']` defers bring-up; both
lookups are JS-truthy checks. -/
def manifestPresent (files : FileMap) : Bool :=
  truthyStr (fmLookup files "package.json") ||
  truthyStr (fmLookup files "/package.json")

/-- `setupContainer` run to completion as one atomic call: the guard chain
(lines 150-165 / 132-145), the synchronous `setupStartedRef.current = true`,
the attempt body, and either the success epilogue (`setIsSetupComplete(true)`)
or the catch block (lines 286-292 / 256-261: record the failure message as
the setup error and reset the started flag so a later trigger may retry). -/
def setupContainer (s : CtrlState) (files : FileMap) (env : SetupEnv)
    (isProduction : Bool) : CtrlState × List Effect :=
  if !s.hasInstance || s.isSetupComplete || s.setupStarted then (s, [])
  else if s.serverUrl ≠ "" then ({ s with isSetupComplete := true }, [])
  else if !(manifestPresent files) then (s, [])
  else
    match attemptBody env isProduction with
    | (effs, Except.ok _) =>
        ({ s with
            setupStarted := true,
            setupError := none,
            isSetupComplete := true }, effs)
    | (effs, Except.error msg) =>
        ({ s with setupError := some msg, setupStarted := false }, effs)

/-- Claim C8: if any bring-up step throws or rejects (including a non-zero
install or build exit raised as an error), the attempt ends with the failure
message captured as the setup error and the started flag reset to false, the
component is not marked complete, the failure does not propagate (the
controller returns a state, never rethrows), and a later trigger whose
attempt succeeds completes a fresh bring-up from the top. -/
theorem c8_bringup_failure_handling (s : CtrlState) (files : FileMap)
    (env : SetupEnv) (isProduction : Bool) (effs : List Effect) (msg : String)
    (hinst : s.hasInstance = true) (hcomp : s.isSetupComplete = false)
    (hstart : s.setupStarted = false) (hurl : s.serverUrl = "")
    (hman : manifestPresent files = true)
    (hfail : attemptBody env isProduction = (effs, Except.error msg)) :
    (setupContainer s files env isProduction).1.setupError = some msg ∧
    (setupContainer s files env isProduction).1.setupStarted = false ∧
    (setupContainer s files env isProduction).1.isSetupComplete = false ∧
    ∀ (env2 : SetupEnv) (effs2 : List Effect),
      attemptBody env2 isProduction = (effs2, Except.ok ()) →
      (setupContainer (setupContainer s files env isProduction).1 files env2
        isProduction).1.isSetupComplete = true := by
  have hres : setupContainer s files env isProduction =
      ({ s with setupError := some msg, setupStarted := false }, effs) := by
    unfold setupContainer
    rw [hfail]
    simp [hinst, hcomp, hstart, hurl, hman]
  refine ⟨by rw [hres], by rw [hres], by rw [hres]; exact hcomp, ?_⟩
  intro env2 effs2 hok
  rw [hres]
  unfold setupContainer
  rw [hok]
  simp [hinst, hcomp, hurl, hman]

/-- Witness for C8 at a concrete failing environment (install exits 1) and a
concrete succeeding retry environment. -/
theorem c8_bringup_failure_handling_witness :
    (setupContainer ⟨true, false, false, "", none⟩ [("package.json", "x")]
        ⟨true, some [], Except.ok (), 1, 0⟩ false).1.setupError =
      some ("Failed to install dependencies. Exit code: " ++
        toString (1 : Int)) ∧
    (setupContainer ⟨true, false, false, "", none⟩ [("package.json", "x")]
        ⟨true, some [], Except.ok (), 1, 0⟩ false).1.setupStarted = false := by
  have h := c8_bringup_failure_handling ⟨true, false, false, "", none⟩
    [("package.json", "x")] ⟨true, some [], Except.ok (), 1, 0⟩ false
    [Effect.spawnInstall]
    ("Failed to install dependencies. Exit code: " ++ toString (1 : Int))
    rfl rfl rfl rfl (by decide) rfl
  exact ⟨h.1, h.2.1⟩

-- ## The interleaved view of bring-up triggers (claim C1)

/-- The preview component state together with the attempt currently in
flight: the effect calls it has not yet issued, and its eventual outcome.
Rapid re-triggers of the setup effect occur while the attempt is suspended,
i.e. while `inflight` is populated. -/
structure Mach where
  ctrl : CtrlState
  inflight : Option (List Effect × Except String Unit)

/-- The synchronous prefix of `setupContainer` (lines 150-167 / 132-148):
the guard chain runs to either an early return, the fast-path completion on
a known server URL, or `setupStartedRef.current = true` — all before the
first `await`. Starting an attempt installs its body as the in-flight work;
no mount/install/spawn call is issued by the trigger itself. -/
def triggerStep (m : Mach) (files : FileMap) (env : SetupEnv)
    (isProduction : Bool) : Mach :=
  if !m.ctrl.hasInstance || m.ctrl.isSetupComplete || m.ctrl.setupStarted then
    m
  else if m.ctrl.serverUrl ≠ "" then
    { m with ctrl := { m.ctrl with isSetupComplete := true } }
  else if !(manifestPresent files) then m
  else
    { ctrl := { m.ctrl with setupStarted := true, setupError := none },
      inflight := some (attemptBody env isProduction) }

/-- One resumption of the in-flight attempt at a suspension point: it either
issues its next pending call, or finishes — successfully
(`setIsSetupComplete(true)`) or through the catch block (record the message,
reset the started flag). -/
def advanceStep (m : Mach) : Mach × List Effect :=
  match m.inflight with
  | none => (m, [])
  | some ([], Except.ok _) =>
      ({ m with
          ctrl := { m.ctrl with isSetupComplete := true },
          inflight := none }, [])
  | some ([], Except.error msg) =>
      ({ m with
          ctrl := { m.ctrl with
                      setupError := some msg,
                      setupStarted := false },
          inflight := none }, [])
  | some (e :: rest, r) => ({ m with inflight := some (rest, r) }, [e])

/-- How many of `n` rapid consecutive triggers (no attempt resumption runs
in between) start an attempt — observed as the started flag flipping from
false to true across the trigger. -/
def countStarts (files : FileMap) (env : SetupEnv) (isProduction : Bool) :
    Mach → Nat → Nat
  | _, 0 => 0
  | m, n + 1 =>
      (if m.ctrl.setupStarted = false ∧
          (triggerStep m files env isProduction).ctrl.setupStarted = true
        then 1 else 0) +
      countStarts files env isProduction
        (triggerStep m files env isProduction) n

theorem countStarts_succ (files : FileMap) (env : SetupEnv)
    (isProduction : Bool) (m : Mach) (n : Nat) :
    countStarts files env isProduction m (n + 1) =
      (if m.ctrl.setupStarted = false ∧
          (triggerStep m files env isProduction).ctrl.setupStarted = true
        then 1 else 0) +
      countStarts files env isProduction
        (triggerStep m files env isProduction) n := rfl

theorem triggerStep_of_started (m : Mach) (files : FileMap) (env : SetupEnv)
    (isProduction : Bool) (h : m.ctrl.setupStarted = true) :
    triggerStep m files env isProduction = m := by
  unfold triggerStep
  have hc : (!m.ctrl.hasInstance || m.ctrl.isSetupComplete ||
      m.ctrl.setupStarted) = true := by
    simp [h]
  rw [if_pos hc]

theorem countStarts_of_started (files : FileMap) (env : SetupEnv)
    (isProduction : Bool) :
    ∀ (n : Nat) (m : Mach), m.ctrl.setupStarted = true →
      countStarts files env isProduction m n = 0 := by
  intro n
  induction n with
  | zero => intro m _; rfl
  | succ n ih =>
      intro m h
      rw [countStarts_succ, triggerStep_of_started m files env isProduction h,
        if_neg (fun hc => absurd h (by simp [hc.1])), ih m h]

theorem countStarts_le_one (files : FileMap) (env : SetupEnv)
    (isProduction : Bool) :
    ∀ (n : Nat) (m : Mach), countStarts files env isProduction m n ≤ 1 := by
  intro n
  induction n with
  | zero => intro m; exact Nat.zero_le 1
  | succ n ih =>
      intro m
      rw [countStarts_succ]
      by_cases hs : m.ctrl.setupStarted = true
      · rw [triggerStep_of_started m files env isProduction hs,
          if_neg (fun hc => absurd hs (by simp [hc.1])),
          countStarts_of_started files env isProduction n m hs]
        exact Nat.zero_le 1
      · by_cases hs' :
            (triggerStep m files env isProduction).ctrl.setupStarted = true
        · rw [if_pos ⟨Bool.eq_false_iff.mpr hs, hs'⟩,
            countStarts_of_started files env isProduction n _ hs']
        · rw [if_neg (fun hc => hs' hc.2), Nat.zero_add]
          exact ih _

/-- Claim C1: at-most-once bring-up. A re-entrant trigger arriving while an
attempt is in flight (the synchronously-set started flag is true) leaves the
machine exactly unchanged — in particular it installs no attempt and, since
only attempt resumptions issue calls, no mount, install, or spawn call
results from it. Whenever a trigger does install an attempt, the post-state
already carries the started flag. Consequently any sequence of rapid,
repeated triggers starts at most one attempt. -/
theorem c1_at_most_once_bringup :
    (∀ (m : Mach) (files : FileMap) (env : SetupEnv) (isProduction : Bool),
      m.ctrl.setupStarted = true →
      triggerStep m files env isProduction = m) ∧
    (∀ (m : Mach) (files : FileMap) (env : SetupEnv) (isProduction : Bool),
      (triggerStep m files env isProduction).inflight ≠ m.inflight →
      (triggerStep m files env isProduction).ctrl.setupStarted = true) ∧
    (∀ (files : FileMap) (env : SetupEnv) (isProduction : Bool) (n : Nat)
      (m : Mach), countStarts files env isProduction m n ≤ 1) := by
  refine ⟨triggerStep_of_started, ?_, ?_⟩
  · intro m files env isProduction hne
    by_cases h1 : (!m.ctrl.hasInstance || m.ctrl.isSetupComplete ||
        m.ctrl.setupStarted) = true
    · exfalso
      apply hne
      unfold triggerStep
      rw [if_pos h1]
    · by_cases h2 : m.ctrl.serverUrl ≠ ""
      · exfalso
        apply hne
        unfold triggerStep
        rw [if_neg h1, if_pos h2]
      · by_cases h3 : (!(manifestPresent files)) = true
        · exfalso
          apply hne
          unfold triggerStep
          rw [if_neg h1, if_neg h2, if_pos h3]
        · unfold triggerStep
          rw [if_neg h1, if_neg h2, if_neg h3]
  · exact countStarts_le_one

/-- Witness for C1: a machine whose started flag is set is left unchanged by
a trigger, and three rapid triggers from a clean state start at most one
attempt. -/
theorem c1_at_most_once_bringup_witness :
    triggerStep ⟨⟨true, false, true, "", none⟩, none⟩ [("package.json", "x")]
        ⟨true, some [], Except.ok (), 0, 0⟩ false =
      ⟨⟨true, false, true, "", none⟩, none⟩ ∧
    countStarts [("package.json", "x")] ⟨true, some [], Except.ok (), 0, 0⟩
        false ⟨⟨true, false, false, "", none⟩, none⟩ 3 ≤ 1 :=
  ⟨c1_at_most_once_bringup.1 ⟨⟨true, false, true, "", none⟩, none⟩
      [("package.json", "x")] ⟨true, some [], Except.ok (), 0, 0⟩ false rfl,
    c1_at_most_once_bringup.2.2 [("package.json", "x")]
      ⟨true, some [], Except.ok (), 0, 0⟩ false 3
      ⟨⟨true, false, false, "", none⟩, none⟩⟩

-- ## The output scanners (claim C6)

/-- Lower-casing, modelling the `/i` flag of the failure-marker regex over
the streamed text. -/
def lcStr (s : String) : String := String.mk (s.data.map Char.toLower)

def strLen (s : String) : Nat := s.data.length

/-- `b.slice(-n)` — the last `n` characters. -/
def strTakeRight (b : String) (n : Nat) : String :=
  String.mk (b.data.drop (b.data.length - n))

def startsWithL : List Char → List Char → Bool
  | _, [] => true
  | [], _ :: _ => false
  | c :: cs, p :: ps => c == p && startsWithL cs ps

/-- Substring occurrence on character lists. -/
def containsL : List Char → List Char → Bool
  | [], pat => pat.isEmpty
  | c :: rest, pat => startsWithL (c :: rest) pat || containsL rest pat

/-- `\.js:\d` at the head of the list. -/
def dotJsDigitAt (l : List Char) : Bool :=
  startsWithL l ".js:".toList &&
  (match l.drop 4 with
   | c :: _ => c.isDigit
   | [] => false)

/-- `.*\.js:\d+` from the current position: the `.*` of a JS regex matches
any character except a line terminator, so the search stops at a newline or
carriage return. -/
def scanDotJs : List Char → Bool
  | [] => false
  | c :: rest =>
      dotJsDigitAt (c :: rest) ||
      (!(c == '\n' || c == '\r') && scanDotJs rest)

/-- The alternative `node_modules\/.*\.js:\d+` of the failure regex. -/
def nmJsSearch : List Char → Bool
  | [] => false
  | c :: rest =>
      (startsWithL (c :: rest) "node_modules/".toList &&
        scanDotJs ((c :: rest).drop 13)) ||
      nmJsSearch rest

/-- The literal alternatives of `errorRegex` (identical in both variants,
part_002 line 122 / part_003 line 43). -/
def errMarkers : List String :=
  ["error:", "exception:", "failed:", "fatal:", "syntax failure",
   "build failed", "err_", "module not found", "cannot find module",
   "uncaught", "referenced by the type"]

/-- `errorRegex.test(s)` — case-insensitive: some literal alternative occurs
in the text, or the `node_modules/...js:digit` pattern does. -/
def errTest (s : String) : Bool :=
  errMarkers.any (fun p => containsL (lcStr s).toList p.toList) ||
  nmJsSearch (lcStr s).toList

/-- The rolling error buffer together with whether a debounce timer is
currently pending. -/
structure ScanState where
  buffer : String
  armed : Bool
deriving DecidableEq, Repr

/-- The trim applied after appending a chunk (both variants): a buffer over
2000 characters is cut to its last 1000 (`errorBuffer.current.slice(-1000)`). -/
def trimBuf (b : String) : String :=
  if strLen b > 2000 then strTakeRight b 1000 else b

/-- `scanForErrors` of the first variant (part_002 lines 126-144): every
chunk is appended to the rolling buffer, the buffer is trimmed, and if the
chunk or the buffer matches the failure pattern the debounce timer is
cleared and restarted; a non-matching chunk still grows the buffer and
leaves any pending timer running. -/
def scanChunkA (s : ScanState) (text : String) : ScanState :=
  if errTest text || errTest (trimBuf (s.buffer ++ text)) then
    { buffer := trimBuf (s.buffer ++ text), armed := true }
  else
    { buffer := trimBuf (s.buffer ++ text), armed := s.armed }

/-- The error-handling tail of `processLog` of the second variant (part_003
lines 112-126): only a chunk that itself matches the failure pattern is
appended to the buffer (then trimmed) and restarts the debounce timer; a
non-matching chunk changes nothing. -/
def scanChunkB (s : ScanState) (data : String) : ScanState :=
  if errTest data then
    { buffer := trimBuf (s.buffer ++ data), armed := true }
  else s

/-- The debounce timer elapsing after a quiet period (both variants, the
`setTimeout` body): the consolidated buffer is emitted through
`onTerminalError` and cleared; nothing happens if no timer is pending. -/
def elapseQuiet (s : ScanState) : ScanState × Option String :=
  if s.armed then ({ buffer := "", armed := false }, some s.buffer)
  else (s, none)

/-- An observation of the scanner: a chunk of process output arriving within
the debounce window of its predecessor, or a quiet period long enough for a
pending debounce timer to fire. -/
inductive ScanEv where
  | chunk (text : String)
  | quiet

/-- Run the first variant's scanner over an event sequence, collecting the
emitted consolidated error reports in order. -/
def runScanA : ScanState → List ScanEv → ScanState × List String
  | s, [] => (s, [])
  | s, ScanEv.chunk t :: rest => runScanA (scanChunkA s t) rest
  | s, ScanEv.quiet :: rest =>
      match elapseQuiet s with
      | (s', some r) => ((runScanA s' rest).1, r :: (runScanA s' rest).2)
      | (s', none) => runScanA s' rest

/-- Run the second variant's scanner over an event sequence. -/
def runScanB : ScanState → List ScanEv → ScanState × List String
  | s, [] => (s, [])
  | s, ScanEv.chunk t :: rest => runScanB (scanChunkB s t) rest
  | s, ScanEv.quiet :: rest =>
      match elapseQuiet s with
      | (s', some r) => ((runScanB s' rest).1, r :: (runScanB s' rest).2)
      | (s', none) => runScanB s' rest

/-- Counterexample to claim C6 as stated: the repository contains two
scanners, and for the `processLog` scanner of the second preview variant the
scenario "Error: x", then "details..." within the debounce window, then
silence produces exactly one report that contains only the first chunk —
the non-matching chunk "details..." is never appended to the buffer, so the
consolidated report does not contain the text of both chunks. -/
theorem c6_error_debounce_counterexample :
    (runScanB ⟨"", false⟩
      [ScanEv.chunk "Error: x", ScanEv.chunk "details...",
        ScanEv.quiet]).2 = ["Error: x"] ∧
    containsL "Error: x".toList "details...".toList = false := by
  exact ⟨by decide, by decide⟩

/-- Claim C6 amended: feeding "Error: x" then "details..." within the
debounce window, then silence, causes exactly one invocation of the error
callback in either variant, with the buffer cleared afterwards; for the
`scanForErrors` scanner of the first variant the single consolidated report
contains the text of both chunks, while for the `processLog` scanner of the
second variant it contains only the text of the matching first chunk. -/
theorem c6_error_debounce_amended :
    (runScanA ⟨"", false⟩
      [ScanEv.chunk "Error: x", ScanEv.chunk "details...",
        ScanEv.quiet]).2 = ["Error: xdetails..."] ∧
    (runScanA ⟨"", false⟩
      [ScanEv.chunk "Error: x", ScanEv.chunk "details...",
        ScanEv.quiet]).1.buffer = "" ∧
    containsL "Error: xdetails...".toList "Error: x".toList = true ∧
    containsL "Error: xdetails...".toList "details...".toList = true ∧
    (runScanB ⟨"", false⟩
      [ScanEv.chunk "Error: x", ScanEv.chunk "details...",
        ScanEv.quiet]).2 = ["Error: x"] ∧
    (runScanB ⟨"", false⟩
      [ScanEv.chunk "Error: x", ScanEv.chunk "details...",
        ScanEv.quiet]).1.buffer = "" := by
  refine ⟨by decide, by decide, by decide, by decide, by decide, by decide⟩
